import Mathlib

/-!
# Verification of the PFM format engine against its specification

Shallow embedding of the PFM line-oriented document container: the escape
codec, the format grammar and limits, the full parser and one-shot writer,
the stream writer's index-offset convergence loop, the JSON import path
(`fromJSON` of `pfm-js/src/convert.ts`), and the checksum-validation command
of the VS Code extension (`pfm-vscode/src/extension.ts`).

Strings are modelled as `List Char` (`Str`) so that line-level reasoning is
by structural induction.  Where the engine itself is not part of the sources
at hand (escape codec, parser, writer, checksum), the definitions are
modelled from the specification, as flagged in their doc comments.
-/

namespace PFM

/-- Character strings, modelled as lists of characters. -/
abbrev Str := List Char

/-- Section-header marker prefix: every section header line starts with these
two characters (the literal characters of the marker used by the grammar). -/
def sectionMark : Str := ['#', '@']

/-- Magic-line / EOF-marker prefix: the first line and the terminator line
both start with these two characters. -/
def magicMark : Str := ['#', '!']

/-- A line that begins with one of the two structural marker prefixes. -/
def isMarkerLine (l : Str) : Bool :=
  sectionMark.isPrefixOf l || magicMark.isPrefixOf l

/-- Modelled from the spec (section 4.1, Escape Codec; the implementation
`escape_content`/`unescape_content` lives in the engine's `spec.py`, which is
not among the sources here): a line is marker-like when, after stripping any
run of leading backslashes, it begins with a structural marker prefix. -/
def hasMarkerAfterBackslashes (l : Str) : Bool :=
  isMarkerLine (l.dropWhile (fun c => c = '\\'))

/-- Modelled from the spec (section 4.1): escaping prepends exactly one
backslash to any physical line that begins with a marker prefix, or with one
or more backslashes eventually followed by a marker prefix. -/
def escapeLine (l : Str) : Str :=
  if hasMarkerAfterBackslashes l then '\\' :: l else l

/-- Modelled from the spec (section 4.1): unescaping strips exactly one
leading backslash from any line that begins with a backslash directly
followed (possibly through further backslashes) by a marker prefix. -/
def unescapeLine (l : Str) : Str :=
  match l with
  | '\\' :: rest => if hasMarkerAfterBackslashes rest then rest else l
  | _ => l

/-- Split a character string into its physical lines at newline characters.
The result is always non-empty; a trailing newline yields a final empty
line, so that joining is a strict inverse. -/
def splitLines : Str → List Str
  | [] => [[]]
  | c :: rest =>
    if c = '\n' then [] :: splitLines rest
    else
      match splitLines rest with
      | [] => [[c]]
      | l :: ls => (c :: l) :: ls

/-- Join physical lines back into a single character string with newline
separators (inverse of `splitLines`). -/
def joinLines : List Str → Str
  | [] => []
  | [l] => l
  | l :: ls => l ++ '\n' :: joinLines ls

/-- Modelled from the spec (section 4.1): content-level escape, applied line
by line. -/
def escapeContent (c : Str) : Str :=
  joinLines ((splitLines c).map escapeLine)

/-- Modelled from the spec (section 4.1): content-level unescape, applied
line by line. -/
def unescapeContent (c : Str) : Str :=
  joinLines ((splitLines c).map unescapeLine)

/-! ## Document model and format grammar -/

/-- A named block of text content (spec section 3): `name` is a lowercase
identifier, `content` arbitrary text stored unescaped in memory. -/
structure PFMSection where
  name : Str
  content : Str
deriving Repr, DecidableEq

/-- The in-memory document model (spec section 3, and the `PFMDocument`
type of `pfm-js`): format version, stream flag, ordered meta mapping, and
ordered section sequence. -/
structure PFMDocument where
  formatVersion : Str
  isStream : Bool
  meta : List (Str × Str)
  sections : List PFMSection
deriving Repr, DecidableEq

/-- Character class of the section-name charset, from the regular expression
in `pfm-js/src/convert.ts` (`VALID_NAME`, one of `a`-`z`, `0`-`9`, `_`, `-`). -/
def validNameChar (c : Char) : Bool :=
  ('a' ≤ c && c ≤ 'z') || ('0' ≤ c && c ≤ '9') || c = '_' || c = '-'

/-- The reserved section names, from `RESERVED_NAMES` in
`pfm-js/src/convert.ts`. -/
def reservedNames : List Str :=
  [String.toList "meta", String.toList "index", String.toList "index-trailing"]

/-- Section-name acceptance test, translated from the filter in `fromJSON`
(`pfm-js/src/convert.ts` lines 77-82): nonempty, at most 64 characters,
every character in the name charset, and not a reserved name. -/
def validSectionName (n : Str) : Bool :=
  decide (0 < n.length) && decide (n.length ≤ 64) &&
    n.all validNameChar && !(reservedNames.contains n)

/-- Meta-key test, modelled from the spec (section 4.5: meta keys are
restricted to the identifier charset): nonempty, characters among
`a`-`z`, `A`-`Z`, `0`-`9`, `_`, `-`. -/
def validMetaKeyChar (c : Char) : Bool :=
  ('a' ≤ c && c ≤ 'z') || ('A' ≤ c && c ≤ 'Z') || ('0' ≤ c && c ≤ '9') ||
    c = '_' || c = '-'

/-- A valid meta key: nonempty and drawn from the identifier charset. -/
def validMetaKey (k : Str) : Bool :=
  decide (0 < k.length) && k.all validMetaKeyChar

/-- Control characters stripped from meta values (spec section 3:
0x00-0x1F and 0x7F). -/
def isControlChar (c : Char) : Bool :=
  c.toNat < 32 || c.toNat = 127

/-- The fixed supported-version set (spec section 4.2; version `1.0`). -/
def supportedVersions : List Str := [String.toList "1.0"]

/-- The total-size ceiling for a serialized document (spec section 3:
legacy default 500 MB). -/
def maxFileSize : Nat := 500 * 1024 * 1024

/-- Maximum number of sections in a document (spec section 3). -/
def maxSections : Nat := 10000

/-- Maximum number of meta fields in a document (spec section 3). -/
def maxMetaFields : Nat := 100

/-! ## JSON values and the import path `fromJSON` -/

/-- JSON values, as returned by `JSON.parse` (numbers kept abstract as
integers; their exact value is irrelevant to the importer, which only
distinguishes strings from non-strings). -/
inductive Json where
  | null : Json
  | bool : Bool → Json
  | num : Int → Json
  | str : Str → Json
  | arr : List Json → Json
  | obj : List (Str × Json) → Json

/-- Property lookup on a JSON object's field list (JavaScript property
access on a `JSON.parse` result). -/
def lookupJ (fields : List (Str × Json)) (k : Str) : Option Json :=
  (fields.find? (fun p => decide (p.1 = k))).map (fun p => p.2)

/-- Keys that must never be set on objects built from untrusted input,
from `FORBIDDEN_KEYS` in `pfm-js/src/convert.ts`. -/
def forbiddenKeys : List Str :=
  [String.toList "__proto__", String.toList "constructor", String.toList "prototype"]

/-- The ambient JavaScript environment of `convert.ts`: `JSON.stringify`
with the importer's indentation, and the current `Date().toISOString()`
timestamp (already trimmed of milliseconds).  Injected as a parameter so
that the importer is a pure function. -/
structure JsEnv where
  stringify : Json → Str
  now : Str

/-- The fixed meta mapping of the raw-JSON wrap path of `fromJSON`
(`pfm-js/src/convert.ts` lines 46-51). -/
def wrapMeta (now : Str) : List (Str × Str) :=
  [(String.toList "agent", String.toList "json-import"),
   (String.toList "created", now)]

/-- The raw-JSON wrap path of `fromJSON`: a non-PFM-structured value is
wrapped as a single `content` section holding its stringification. -/
def wrapRawJson (env : JsEnv) (data : Json) : PFMDocument :=
  { formatVersion := String.toList "1.0"
    isStream := false
    meta := wrapMeta env.now
    sections := [⟨String.toList "content", env.stringify data⟩] }

/-- Meta sanitization of `fromJSON` (`pfm-js/src/convert.ts` lines 54-64):
keep only string-valued entries whose key is not forbidden. -/
def sanitizeMeta (rawMeta : Option Json) : List (Str × Str) :=
  match rawMeta with
  | some (Json.obj mfields) =>
    mfields.filterMap (fun p =>
      match p.2 with
      | Json.str s => if forbiddenKeys.contains p.1 then none else some (p.1, s)
      | _ => none)
  | _ => []

/-- Section sanitization of `fromJSON` (`pfm-js/src/convert.ts` lines
66-86): keep only well-formed objects with string `name` and `content`,
then keep only sections with an accepted name. -/
def sanitizeSections (rawSections : Option Json) : List PFMSection :=
  match rawSections with
  | some (Json.arr items) =>
    (items.filterMap (fun it =>
      match it with
      | Json.obj sfields =>
        match lookupJ sfields (String.toList "name"),
              lookupJ sfields (String.toList "content") with
        | some (Json.str n), some (Json.str c) => some (⟨n, c⟩ : PFMSection)
        | _, _ => none
      | _ => none)).filter (fun s => validSectionName s.name)
  | _ => []

/-- `fromJSON`, translated from `pfm-js/src/convert.ts` lines 41-99.  The
input is the `JSON.parse` result of the JSON string; a parse failure of
`JSON.parse` itself is outside this function, exactly as in the source.
A value that is not a non-null, non-array object with a `sections` key is
wrapped as raw content; otherwise meta and sections are sanitized, and a
string `pfm_version` other than `1.0` is rejected while a missing or
non-string `pfm_version` defaults to `1.0`. -/
def fromJSON (env : JsEnv) (data : Json) : Except Str PFMDocument :=
  match data with
  | Json.obj fields =>
    if (lookupJ fields (String.toList "sections")).isSome then
      let safeMeta := sanitizeMeta (lookupJ fields (String.toList "meta"))
      let safeSections := sanitizeSections (lookupJ fields (String.toList "sections"))
      let version : Str :=
        match lookupJ fields (String.toList "pfm_version") with
        | some (Json.str v) => v
        | _ => String.toList "1.0"
      if version = String.toList "1.0" then
        Except.ok
          { formatVersion := version
            isStream := false
            meta := safeMeta
            sections := safeSections }
      else
        Except.error (String.toList "Unsupported PFM format version: " ++ version)
    else
      Except.ok (wrapRawJson env data)
  | _ => Except.ok (wrapRawJson env data)

/-- A concrete JavaScript environment for evaluating the importer on
concrete inputs (stringification and timestamp irrelevant to the
properties at stake). -/
def constEnv : JsEnv := ⟨fun _ => [], []⟩

/-- Concrete import input: an object with an empty `sections` array and a
`pfm_version` field holding the JSON number 2, which is not in the
supported version set. -/
def jsonNumVersionInput : Json :=
  Json.obj [(String.toList "sections", Json.arr []),
            (String.toList "pfm_version", Json.num 2)]

/-- Concrete import input holding one section with the invalid name
`BAD NAME` (uppercase and a space) followed by one valid section named
`good`. -/
def jsonInvalidSectionInput : Json :=
  Json.obj [(String.toList "sections", Json.arr
    [Json.obj [(String.toList "name", Json.str (String.toList "BAD NAME")),
               (String.toList "content", Json.str (String.toList "x"))],
     Json.obj [(String.toList "name", Json.str (String.toList "good")),
               (String.toList "content", Json.str (String.toList "y"))]])]

/-- Concrete import input whose meta object carries a `__proto__` key, a
string-valued key `a`, and a number-valued key `n`. -/
def jsonMetaInput : Json :=
  Json.obj [(String.toList "sections", Json.arr []),
            (String.toList "meta", Json.obj
              [(String.toList "__proto__", Json.str (String.toList "p")),
               (String.toList "a", Json.str (String.toList "b")),
               (String.toList "n", Json.num 1)])]

/-! ## One-shot writer and full parser

Modelled from the spec (sections 4.3, 4.5 and 6; the implementations
`pfm/writer.py`, `pfm/reader.py` and `pfm-js/src/parser.ts` /
`serialize.ts` are not among the sources here, only their conformance
tests). -/

/-- The magic-line prefix: the first line is this prefix followed by the
format version, optionally followed by the stream flag. -/
def magicBase : Str := String.toList "#!PFM/"

/-- The EOF-marker line (stream mode appends a colon and the byte offset
of the trailing index). -/
def eofMark : Str := String.toList "#!END"

/-- The stream flag appended to the magic line of stream documents. -/
def streamFlag : Str := String.toList ":STREAM"

/-- One meta-block line: `key: value`. -/
def metaLine (p : Str × Str) : Str := p.1 ++ ':' :: ' ' :: p.2

/-- The magic line of a document: prefix, version, optional stream flag. -/
def magicLine (d : PFMDocument) : Str :=
  magicBase ++ d.formatVersion ++ (if d.isStream then streamFlag else [])

/-- The lines of one serialized section: header line (marker plus name)
followed by the escaped content lines. -/
def serializeSectionLines (s : PFMSection) : List Str :=
  (sectionMark ++ s.name) :: (splitLines s.content).map escapeLine

/-- Modelled from the spec (section 4.5): the lines of a one-shot
serialization — magic line, meta block, sections, EOF marker. -/
def serializeLines (d : PFMDocument) : List Str :=
  magicLine d ::
    (d.meta.map metaLine ++ (d.sections.flatMap serializeSectionLines ++ [eofMark]))

/-- Modelled from the spec (section 4.5): one-shot serialization of a
(non-stream) document to characters. -/
def serialize (d : PFMDocument) : Str := joinLines (serializeLines d)

/-- Parse the magic line: validate the prefix, extract the version and the
optional stream flag, and reject a version outside the supported set. -/
def parseMagic (magic : Str) : Option (Str × Bool) :=
  if magicBase.isPrefixOf magic then
    let vs := magic.drop 6
    let version := vs.takeWhile (fun c => c != ':')
    let flagPart := vs.dropWhile (fun c => c != ':')
    if supportedVersions.contains version then
      if flagPart = [] then some (version, false)
      else if flagPart = streamFlag then some (version, true)
      else none
    else none
  else none

/-- Parse one meta-block line `key: value`; fails on a line without the
separator or with an empty key. -/
def parseMetaLine (l : Str) : Option (Str × Str) :=
  let k := l.takeWhile (fun c => c != ':')
  match l.dropWhile (fun c => c != ':') with
  | ':' :: ' ' :: v => if k = [] then none else some (k, v)
  | _ => none

/-- Parse all lines of the meta block, failing on the first malformed
line. -/
def parseMetaLines : List Str → Option (List (Str × Str))
  | [] => some []
  | l :: rest => do
    let p ← parseMetaLine l
    let ps ← parseMetaLines rest
    pure (p :: ps)

/-- Modelled from the spec (section 4.3): consume section headers and
escaped bodies, validating each name, unescaping each body, and stopping at
the EOF marker.  Fails structurally on anything else.  The `fuel`
parameter only bounds the recursion depth; it is always instantiated with
the number of remaining lines, which strictly decreases at each step. -/
def parseSectionsFuel : Nat → List Str → Option (List PFMSection)
  | _, [] => none
  | 0, _ :: _ => none
  | fuel + 1, l :: rest =>
    if magicMark.isPrefixOf l then
      if eofMark.isPrefixOf l then some [] else none
    else if sectionMark.isPrefixOf l then
      if validSectionName (l.drop 2) then
        match parseSectionsFuel fuel (rest.dropWhile (fun x => !isMarkerLine x)) with
        | some ss =>
          some (⟨l.drop 2,
                 joinLines ((rest.takeWhile (fun x => !isMarkerLine x)).map unescapeLine)⟩ :: ss)
        | none => none
      else none
    else none

/-- The section-and-EOF part of the full parse (spec section 4.3). -/
def parseSections (lines : List Str) : Option (List PFMSection) :=
  parseSectionsFuel lines.length lines

/-- Modelled from the spec (section 4.3): parse the physical lines of a
document — magic line first, then the meta block up to the first structural
line (with the meta-count ceiling), then sections up to the EOF marker
(with the section-count ceiling). -/
def parseLines : List Str → Option PFMDocument
  | [] => none
  | magic :: rest =>
    (parseMagic magic).bind (fun vi =>
      (parseMetaLines (rest.takeWhile (fun l => !isMarkerLine l))).bind (fun meta =>
        if meta.length ≤ maxMetaFields then
          (parseSections (rest.dropWhile (fun l => !isMarkerLine l))).bind (fun secs =>
            if secs.length ≤ maxSections then
              some ⟨vi.1, vi.2, meta, secs⟩
            else none)
        else none))

/-- Modelled from the spec (section 4.3): full parse — the total size is
validated against the ceiling before anything else; then the line-level
parse runs.  Fails with `none` (a structural error) on any violated
invariant; never returns a partial document. -/
def parse (input : Str) : Option PFMDocument :=
  if input.length ≤ maxFileSize then parseLines (splitLines input)
  else none

/-- Validity of an in-memory document for the one-shot writer, from the
spec's invariants (section 3): supported version, non-stream (the stream
path goes through the stream writer), section/meta count ceilings, valid
section names, identifier meta keys, control-character-free meta values,
and the serialized-size ceiling. -/
def validDoc (d : PFMDocument) : Bool :=
  decide (d.formatVersion = String.toList "1.0") &&
  !d.isStream &&
  decide (d.sections.length ≤ maxSections) &&
  d.sections.all (fun s => validSectionName s.name) &&
  decide (d.meta.length ≤ maxMetaFields) &&
  d.meta.all (fun p => validMetaKey p.1 && p.2.all (fun c => !isControlChar c)) &&
  decide ((serialize d).length ≤ maxFileSize)

/-! ## Checksum -/

/-- Modelled from the spec (section 4.7): the checksum input is the ordered
concatenation of section contents only — meta and section names are
excluded by construction. -/
def checksumInput (sections : List PFMSection) : Str :=
  (sections.map (fun s => s.content)).flatten

/-- Modelled from the spec (section 4.7): the checksum is a hash of the
ordered concatenation of section contents.  The hash itself (SHA-256 in the
implementation) is abstracted as the parameter `H`. -/
def checksum (H : Str → Str) (d : PFMDocument) : Str :=
  H (checksumInput d.sections)

/-! ## Constant-time comparison and checksum validation
(`pfm-vscode/src/extension.ts`) -/

/-- The loop of `timingSafeEqual` (`pfm-vscode/src/extension.ts` lines
18-25), instrumented with its iteration count: strings are sequences of
UTF-16 code units, `result` starts at 0 when the lengths agree and 1
otherwise, and every position up to the longer length is OR-ed with the
XOR of the code units (`charCodeAt` out of range yields `NaN`, which
`|| 0` turns into 0, modelled by `getD 0`).  The second component is the
number of loop iterations performed. -/
def tseFold (a b : List Nat) : Nat × Nat :=
  ((List.range (max a.length b.length)).foldl
      (fun r i => r ||| ((a.getD i 0) ^^^ (b.getD i 0)))
      (if a.length = b.length then 0 else 1),
   max a.length b.length)

/-- `timingSafeEqual`, translated from `pfm-vscode/src/extension.ts` lines
18-25: true exactly when the accumulated OR is zero. -/
def timingSafeEqual (a b : List Nat) : Bool := decide ((tseFold a b).1 = 0)

/-- `timingSafeEqual` on character strings (JavaScript strings are UTF-16
code-unit sequences; `Char.toNat` stands for `charCodeAt`). -/
def timingSafeEqualStr (a b : Str) : Bool :=
  timingSafeEqual (a.map Char.toNat) (b.map Char.toNat)

/-- Outcome of the `pfm.validateChecksum` command. -/
inductive ChecksumReport where
  | missing : ChecksumReport
  | valid : ChecksumReport
  | invalid : ChecksumReport
deriving Repr, DecidableEq

/-- Lookup of a meta key in the document's meta mapping (JavaScript
property access `doc.meta.checksum`). -/
def metaLookup (m : List (Str × Str)) (k : Str) : Option Str :=
  (m.find? (fun p => decide (p.1 = k))).map (fun p => p.2)

/-- The `pfm.validateChecksum` command, translated from
`pfm-vscode/src/extension.ts` lines 70-84, applied to the already-parsed
document: a missing (or empty — JavaScript falsiness) stored checksum
warns and returns without validating; otherwise the computed checksum is
compared to the stored one with `timingSafeEqual`.  The checksum
computation (`computeChecksum` of the extension's parser module) is
abstracted as `H`. -/
def pfmValidateChecksum (H : List PFMSection → Str) (doc : PFMDocument) :
    ChecksumReport :=
  match metaLookup doc.meta (String.toList "checksum") with
  | none => ChecksumReport.missing
  | some expected =>
    if expected = [] then ChecksumReport.missing
    else if timingSafeEqualStr (H doc.sections) expected then ChecksumReport.valid
    else ChecksumReport.invalid

/-! ## Stream writer: index-offset convergence

Modelled from the spec (sections 4.5 and 6; the implementation
`pfm/stream.py` / `pfm/writer.py` is not among the sources here).  Layout
modelled from the external-interface section: content lines first, then
the EOF marker carrying the byte offset of the trailing index, then the
trailing index itself (placed after content, located by backward search).
Every line is newline-terminated.  The EOF line's own encoded size affects
the offset it carries, which is resolved by the spec's iterative
fixed-point computation bounded to `indexAttempts` attempts. -/

/-- Newline-terminated byte rendering of a list of lines. -/
def linesLF (ls : List Str) : Str := ls.flatMap (fun l => l ++ ['\n'])

/-- The bytes of one section's escaped content block inside a stream file. -/
def sectionBytes (s : PFMSection) : Str :=
  linesLF ((splitLines s.content).map escapeLine)

/-- The header line of a section. -/
def headerLineOf (s : PFMSection) : Str := sectionMark ++ s.name

/-- One entry of the trailing index: section name, byte offset and byte
length of that section's content block in the serialized file. -/
structure IndexEntry where
  name : Str
  off : Nat
  len : Nat
deriving Repr, DecidableEq

/-- Index entries for a section list laid out starting at byte `base`:
each entry's offset skips that section's header line and points at its
content block. -/
def entriesFrom (base : Nat) : List PFMSection → List IndexEntry
  | [] => []
  | s :: ss =>
    ⟨s.name, base + ((headerLineOf s).length + 1), (sectionBytes s).length⟩ ::
      entriesFrom (base + ((headerLineOf s).length + 1) + (sectionBytes s).length) ss

/-- The bytes of a stream file before the sections: magic line and meta
block. -/
def streamPre (d : PFMDocument) : Str :=
  linesLF (magicLine d :: d.meta.map metaLine)

/-- The bytes of a stream file before the EOF marker: magic line, meta
block, and all section blocks. -/
def streamBody (d : PFMDocument) : Str :=
  streamPre d ++ linesLF (d.sections.flatMap serializeSectionLines)

/-- The index entries of a stream document. -/
def streamEntries (d : PFMDocument) : List IndexEntry :=
  entriesFrom (streamPre d).length d.sections

/-- The marker line opening the trailing index block. -/
def indexMarkLine : Str := sectionMark ++ String.toList "index-trailing"

/-- One encoded index entry line: `name:offset:length` in decimal. -/
def entryLine (e : IndexEntry) : Str :=
  e.name ++ ':' :: ((Nat.repr e.off).toList ++ ':' :: (Nat.repr e.len).toList)

/-- The encoded trailing index block of a stream document. -/
def indexBlock (d : PFMDocument) : Str :=
  linesLF (indexMarkLine :: (streamEntries d).map entryLine)

/-- The EOF line of a stream file, carrying the byte offset of the
trailing index in decimal. -/
def streamEofLine (off : Nat) : Str :=
  eofMark ++ ':' :: (Nat.repr off).toList

/-- Modelled from the spec (section 4.5): the iterative fixed-point
computation for the index offset.  A candidate offset is encoded into the
EOF line; the resulting actual position of the index (body length plus the
newline-terminated EOF line's length) is measured; if it differs from the
candidate — the encoding changed the digit-width — the writer re-encodes
with the measured value, for at most the given number of attempts, after
which it fails. -/
def fixIndexOffset (bodyLen : Nat) : Nat → Nat → Option Nat
  | 0, _ => none
  | fuel + 1, cand =>
    if bodyLen + (streamEofLine cand).length + 1 = cand then some cand
    else fixIndexOffset bodyLen fuel (bodyLen + (streamEofLine cand).length + 1)

/-- The small fixed bound on re-encoding attempts (spec section 4.5:
"e.g., 3"). -/
def indexAttempts : Nat := 3

/-- Modelled from the spec (sections 4.5-4.6): serialize a stream document
— body, then the EOF marker carrying the converged index offset, then the
trailing index.  Fails (`none`) when the offset computation does not
converge within `indexAttempts` attempts. -/
def writeStream (d : PFMDocument) : Option Str :=
  if d.isStream then
    match fixIndexOffset (streamBody d).length indexAttempts (streamBody d).length with
    | none => none
    | some off => some (streamBody d ++ linesLF [streamEofLine off] ++ indexBlock d)
  else none

/-- Self-consistency of a stream file's trailing index (spec section 8):
every entry carries its section's name, and its offset and length resolve
to exactly that section's bytes in the file. -/
def SelfConsistentIndex (d : PFMDocument) (file : Str) : Prop :=
  ∀ pr ∈ (streamEntries d).zip d.sections,
    pr.1.name = pr.2.name ∧
      (file.drop pr.1.off).take pr.1.len = sectionBytes pr.2

/-- Claim C7 witness input: a document with no checksum meta field. -/
def noChecksumDoc : PFMDocument :=
  ⟨String.toList "1.0", false,
   [(String.toList "agent", String.toList "t")],
   [⟨String.toList "content", String.toList "hello"⟩]⟩

/-- Field list of a concrete import input whose `pfm_version` field is a
string outside the supported set. -/
def strVersionFields : List (Str × Json) :=
  [(String.toList "sections", Json.arr []),
   (String.toList "pfm_version", Json.str (String.toList "9.9"))]

/-- A concrete valid document exercising escaping: its second section's
content contains the literal section marker, the literal EOF marker, and a
backslash-escaped marker. -/
def exampleDoc : PFMDocument :=
  ⟨String.toList "1.0", false,
   [(String.toList "agent", String.toList "test")],
   [⟨String.toList "content", String.toList "hello"⟩,
    ⟨String.toList "notes", String.toList "#@x\n#!END\n\\#@y"⟩]⟩

/-- A concrete stream document with two sections, one of which contains a
marker line that must be escaped. -/
def exampleStreamDoc : PFMDocument :=
  ⟨String.toList "1.0", true,
   [(String.toList "agent", String.toList "t")],
   [⟨String.toList "aa", String.toList "hello\nworld"⟩,
    ⟨String.toList "bb", String.toList "#@x"⟩]⟩

/-! ## Escape codec lemmas -/

theorem hasMarker_cons_backslash (rest : Str) :
    hasMarkerAfterBackslashes ('\\' :: rest) = hasMarkerAfterBackslashes rest := by
  simp [hasMarkerAfterBackslashes, List.dropWhile]

theorem unescapeLine_escapeLine (l : Str) : unescapeLine (escapeLine l) = l := by
  by_cases h : hasMarkerAfterBackslashes l
  · have he : escapeLine l = '\\' :: l := by simp [escapeLine, h]
    rw [he]
    simp [unescapeLine, h]
  · have he : escapeLine l = l := by simp [escapeLine, h]
    rw [he]
    cases l with
    | nil => rfl
    | cons c rest =>
      by_cases hc : c = '\\'
      · subst hc
        have hr : hasMarkerAfterBackslashes rest = false := by
          rw [← hasMarker_cons_backslash]
          simpa using h
        simp [unescapeLine, hr]
      · cases c with
        | mk v h2 =>
          simp only [unescapeLine]
          split
          · rename_i heq
            exfalso
            apply hc
            cases heq
            rfl
          · rfl

theorem splitLines_ne_nil (s : Str) : splitLines s ≠ [] := by
  cases s with
  | nil => simp [splitLines]
  | cons c rest =>
    simp only [splitLines]
    split
    · simp
    · split
      · simp
      · simp

theorem joinLines_splitLines (s : Str) : joinLines (splitLines s) = s := by
  induction s with
  | nil => rfl
  | cons c rest ih =>
    simp only [splitLines]
    by_cases h : c = '\n'
    · subst h
      simp only [if_pos rfl]
      cases hs : splitLines rest with
      | nil => exact absurd hs (splitLines_ne_nil rest)
      | cons l ls =>
        rw [hs] at ih
        simp [joinLines, ih]
    · simp only [if_neg h]
      cases hs : splitLines rest with
      | nil => exact absurd hs (splitLines_ne_nil rest)
      | cons l ls =>
        rw [hs] at ih
        cases ls with
        | nil => simp_all [joinLines]
        | cons l2 ls2 => simp_all [joinLines]

theorem mem_splitLines_no_newline (s : Str) :
    ∀ l ∈ splitLines s, '\n' ∉ l := by
  induction s with
  | nil => intro l hl; simp [splitLines] at hl; simp [hl]
  | cons c rest ih =>
    intro l hl
    by_cases h : c = '\n'
    · subst h
      have he : splitLines ('\n' :: rest) = [] :: splitLines rest := by
        simp [splitLines]
      rw [he, List.mem_cons] at hl
      rcases hl with rfl | hl
      · simp
      · exact ih l hl
    · cases hs : splitLines rest with
      | nil => exact absurd hs (splitLines_ne_nil rest)
      | cons m ms =>
        have he : splitLines (c :: rest) = (c :: m) :: ms := by
          simp [splitLines, if_neg h, hs]
        rw [he, List.mem_cons] at hl
        rcases hl with rfl | hl
        · intro hmem
          simp only [List.mem_cons] at hmem
          rcases hmem with rfl | hmem
          · exact h rfl
          · exact ih m (by rw [hs]; exact List.mem_cons_self m ms) hmem
        · exact ih l (by rw [hs]; exact List.mem_cons_of_mem m hl)

theorem splitLines_single (l : Str) (h : '\n' ∉ l) : splitLines l = [l] := by
  induction l with
  | nil => rfl
  | cons c rest ih =>
    simp only [List.mem_cons, not_or] at h
    have hc : ¬ c = '\n' := fun hh => h.1 hh.symm
    simp only [splitLines, if_neg hc, ih h.2]

theorem splitLines_append_newline (l t : Str) (h : '\n' ∉ l) :
    splitLines (l ++ '\n' :: t) = l :: splitLines t := by
  induction l with
  | nil => simp [splitLines]
  | cons c rest ih =>
    simp only [List.mem_cons, not_or] at h
    have hc : ¬ c = '\n' := fun hh => h.1 hh.symm
    simp only [List.cons_append, splitLines, if_neg hc]
    rw [show rest ++ '\n' :: t = List.append rest ('\n' :: t) from rfl] at ih
    rw [ih h.2]

theorem splitLines_joinLines (ls : List Str) (hne : ls ≠ [])
    (h : ∀ l ∈ ls, '\n' ∉ l) : splitLines (joinLines ls) = ls := by
  induction ls with
  | nil => exact absurd rfl hne
  | cons l ls ih =>
    cases ls with
    | nil =>
      simp only [joinLines]
      exact splitLines_single l (h l (List.mem_cons_self l []))
    | cons l2 ls2 =>
      simp only [joinLines]
      rw [splitLines_append_newline l _ (h l (List.mem_cons_self _ _))]
      rw [ih (by simp) (fun x hx => h x (List.mem_cons_of_mem l hx))]

theorem escapeLine_no_newline (l : Str) (h : '\n' ∉ l) : '\n' ∉ escapeLine l := by
  simp only [escapeLine]
  split
  · intro hmem
    simp only [List.mem_cons] at hmem
    rcases hmem with hh | hh
    · exact absurd hh.symm (by decide)
    · exact h hh
  · exact h

theorem unescapeContent_escapeContent (c : Str) :
    unescapeContent (escapeContent c) = c := by
  unfold unescapeContent escapeContent
  rw [splitLines_joinLines _ (by simp [splitLines_ne_nil])
    (by
      intro l hl
      simp only [List.mem_map] at hl
      obtain ⟨m, hm, rfl⟩ := hl
      exact escapeLine_no_newline m (mem_splitLines_no_newline c m hm))]
  rw [List.map_map]
  have : (unescapeLine ∘ escapeLine) = id := by
    funext x
    exact unescapeLine_escapeLine x
  rw [this, List.map_id]
  exact joinLines_splitLines c

/-- Claim C1: for every content string `c`, unescaping the escape of `c`
returns `c` exactly — in particular when `c` contains the literal magic
line, the literal EOF marker, or 1 through 5 leading backslashes before a
marker-like substring — and the escape/unescape round trip is stable under
arbitrarily many repeated cycles (unbounded nesting depth). -/
theorem escape_unescape_roundtrip_stable (c : Str) (n : Nat) :
    (fun x => unescapeContent (escapeContent x))^[n] c = c := by
  induction n with
  | zero => rfl
  | succ k ih =>
    rw [Function.iterate_succ_apply', ih, unescapeContent_escapeContent]


/-! ## Line classification lemmas -/

theorem isMarkerLine_of_head_ne (c : Char) (t : Str) (h : ¬ c = '#') :
    isMarkerLine (c :: t) = false := by
  have hb : ('#' == c) = false := beq_eq_false_iff_ne.mpr (fun hh => h hh.symm)
  simp [isMarkerLine, sectionMark, magicMark, List.isPrefixOf, hb]

theorem isMarkerLine_escapeLine (l : Str) : isMarkerLine (escapeLine l) = false := by
  by_cases h : hasMarkerAfterBackslashes l
  · have he : escapeLine l = '\\' :: l := by simp [escapeLine, h]
    rw [he]
    exact isMarkerLine_of_head_ne _ _ (by decide)
  · have he : escapeLine l = l := by simp [escapeLine, h]
    rw [he]
    cases l with
    | nil => decide
    | cons c t =>
      by_cases hc : c = '\\'
      · subst hc
        exact isMarkerLine_of_head_ne _ _ (by decide)
      · have hh : hasMarkerAfterBackslashes (c :: t) = isMarkerLine (c :: t) := by
          simp [hasMarkerAfterBackslashes, List.dropWhile, hc]
        rw [← hh]
        simpa using h

theorem isMarkerLine_header (n : Str) : isMarkerLine (sectionMark ++ n) = true := by
  simp [isMarkerLine, sectionMark, List.isPrefixOf]

theorem validMetaKeyChar_ne_hash (c : Char) (h : validMetaKeyChar c = true) :
    ¬ c = '#' := by
  intro heq
  rw [heq] at h
  simp [validMetaKeyChar] at h

theorem isMarkerLine_metaLine (p : Str × Str) (h : validMetaKey p.1 = true) :
    isMarkerLine (metaLine p) = false := by
  simp only [validMetaKey, Bool.and_eq_true, decide_eq_true_eq, List.all_eq_true] at h
  obtain ⟨hlen, hchars⟩ := h
  cases hk : p.1 with
  | nil => rw [hk] at hlen; simp at hlen
  | cons c k =>
    have hc : validMetaKeyChar c = true := hchars c (by rw [hk]; exact List.mem_cons_self c k)
    have hform : metaLine p = c :: (k ++ ':' :: ' ' :: p.2) := by
      simp [metaLine, hk]
    rw [hform]
    exact isMarkerLine_of_head_ne _ _ (validMetaKeyChar_ne_hash c hc)

/-! ## Block splitting along takeWhile and dropWhile -/

theorem takeWhile_append_block {α : Type} (q : α → Bool) :
    ∀ (xs : List α) (y : α) (zs : List α), (∀ x ∈ xs, q x = true) → q y = false →
      (xs ++ y :: zs).takeWhile q = xs ∧ (xs ++ y :: zs).dropWhile q = y :: zs := by
  intro xs
  induction xs with
  | nil =>
    intro y zs _ hy
    constructor
    · simp [List.takeWhile_cons, hy]
    · simp [List.dropWhile_cons, hy]
  | cons x xs ih =>
    intro y zs hxs hy
    have hx : q x = true := hxs x (List.mem_cons_self x xs)
    have hrest := ih y zs (fun a ha => hxs a (List.mem_cons_of_mem x ha)) hy
    constructor
    · simp only [List.cons_append, List.takeWhile_cons, hx, if_pos]
      rw [hrest.1]
    · simp only [List.cons_append, List.dropWhile_cons, hx, if_pos]
      exact hrest.2

/-! ## Meta block round trip -/

theorem parseMetaLine_metaLine (p : Str × Str) (h : validMetaKey p.1 = true) :
    parseMetaLine (metaLine p) = some p := by
  simp only [validMetaKey, Bool.and_eq_true, decide_eq_true_eq, List.all_eq_true] at h
  obtain ⟨hlen, hchars⟩ := h
  have hnec : ∀ c ∈ p.1, (c != ':') = true := by
    intro c hc
    have hvc := hchars c hc
    simp only [bne_iff_ne, ne_eq]
    intro heq
    rw [heq] at hvc
    simp [validMetaKeyChar] at hvc
  have hsplit := takeWhile_append_block (fun c => c != ':') p.1 ':' (' ' :: p.2) hnec (by decide)
  have hform : metaLine p = p.1 ++ ':' :: ' ' :: p.2 := rfl
  rw [parseMetaLine, hform]
  rw [hsplit.2]
  have hne : ¬ p.1 = [] := by
    intro hnil
    rw [hnil] at hlen
    simp at hlen
  simp only [hsplit.1, if_neg hne]

theorem parseMetaLines_map (m : List (Str × Str))
    (h : ∀ p ∈ m, validMetaKey p.1 = true) :
    parseMetaLines (m.map metaLine) = some m := by
  induction m with
  | nil => rfl
  | cons p m ih =>
    simp only [List.map_cons, parseMetaLines]
    rw [parseMetaLine_metaLine p (h p (List.mem_cons_self p m))]
    rw [ih (fun a ha => h a (List.mem_cons_of_mem p ha))]
    rfl


/-! ## Section block round trip -/

theorem unescape_escape_lines (c : Str) :
    joinLines (((splitLines c).map escapeLine).map unescapeLine) = c := by
  rw [List.map_map]
  have h : (unescapeLine ∘ escapeLine) = id := funext unescapeLine_escapeLine
  rw [h, List.map_id, joinLines_splitLines]

theorem secBlock_shape (ss : List PFMSection) :
    ∃ y zs, ss.flatMap serializeSectionLines ++ [eofMark] = y :: zs ∧
      isMarkerLine y = true := by
  cases ss with
  | nil => exact ⟨eofMark, [], rfl, by decide⟩
  | cons s ss =>
    refine ⟨sectionMark ++ s.name,
      ((splitLines s.content).map escapeLine) ++ (ss.flatMap serializeSectionLines ++ [eofMark]),
      ?_, isMarkerLine_header s.name⟩
    simp [serializeSectionLines, List.flatMap_cons]

theorem parseSectionsFuel_serialize :
    ∀ (ss : List PFMSection) (fuel : Nat),
      (ss.flatMap serializeSectionLines ++ [eofMark]).length ≤ fuel →
      (∀ s ∈ ss, validSectionName s.name = true) →
      parseSectionsFuel fuel (ss.flatMap serializeSectionLines ++ [eofMark]) = some ss := by
  intro ss
  induction ss with
  | nil =>
    intro fuel hlen _
    cases fuel with
    | zero => simp at hlen
    | succ k =>
      have h1 : magicMark.isPrefixOf eofMark = true := by decide
      have h2 : eofMark.isPrefixOf eofMark = true := by decide
      simp [parseSectionsFuel, h1, h2]
  | cons s ss ih =>
    intro fuel hlen hvalid
    have hshape : (s :: ss).flatMap serializeSectionLines ++ [eofMark]
        = (sectionMark ++ s.name) ::
            (((splitLines s.content).map escapeLine) ++
              (ss.flatMap serializeSectionLines ++ [eofMark])) := by
      simp [serializeSectionLines, List.flatMap_cons]
    rw [hshape] at hlen ⊢
    cases fuel with
    | zero => simp at hlen
    | succ k =>
      have hnotmagic : magicMark.isPrefixOf (sectionMark ++ s.name) = false := by
        simp [magicMark, sectionMark, List.isPrefixOf]
      have hsec : sectionMark.isPrefixOf (sectionMark ++ s.name) = true := by
        rw [List.isPrefixOf_iff_prefix]
        exact List.prefix_append _ _
      have hdrop : (sectionMark ++ s.name).drop 2 = s.name := rfl
      have hbody : ∀ x ∈ (splitLines s.content).map escapeLine,
          (!isMarkerLine x) = true := by
        intro x hx
        obtain ⟨m, _, rfl⟩ := List.mem_map.mp hx
        simp [isMarkerLine_escapeLine]
      obtain ⟨y, zs, htail, hy⟩ := secBlock_shape ss
      have hyq : (!isMarkerLine y) = false := by simp [hy]
      have hsplit := takeWhile_append_block (fun x => !isMarkerLine x)
        ((splitLines s.content).map escapeLine) y zs hbody hyq
      simp only [parseSectionsFuel, hnotmagic, hsec, hdrop,
        hvalid s (List.mem_cons_self s ss), Bool.false_eq_true, if_false, if_true]
      rw [htail] at hlen ⊢
      rw [hsplit.1, hsplit.2, ← htail]
      have hrec : parseSectionsFuel k (ss.flatMap serializeSectionLines ++ [eofMark])
          = some ss := by
        apply ih
        · rw [htail]
          simp only [List.length_cons, List.length_append] at hlen ⊢
          omega
        · exact fun a ha => hvalid a (List.mem_cons_of_mem s ha)
      rw [hrec]
      rw [unescape_escape_lines]

/-! ## Serialized lines are newline-free -/

theorem not_mem_newline_of_all {p : Char → Bool} (l : Str)
    (h : l.all p = true) (hp : p '\n' = false) : '\n' ∉ l := by
  intro hmem
  rw [List.all_eq_true] at h
  have hc := h _ hmem
  rw [hp] at hc
  exact absurd hc (by simp)

theorem serializeLines_no_newline (d : PFMDocument) (h : validDoc d = true) :
    ∀ l ∈ serializeLines d, '\n' ∉ l := by
  simp only [validDoc, Bool.and_eq_true, decide_eq_true_eq, Bool.not_eq_true',
    List.all_eq_true] at h
  obtain ⟨⟨⟨⟨⟨⟨hver, hstream⟩, hseccount⟩, hnames⟩, hmetacount⟩, hmeta⟩, hsize⟩ := h
  intro l hl
  simp only [serializeLines, List.mem_cons, List.mem_append] at hl
  rcases hl with rfl | hl | hl
  · rw [magicLine, hver, hstream]
    decide
  · obtain ⟨p, hp, rfl⟩ := List.mem_map.mp hl
    have hpm := hmeta p hp
    have hkey := hpm.1
    rw [validMetaKey, Bool.and_eq_true] at hkey
    intro hmem
    rw [metaLine] at hmem
    simp only [List.mem_append, List.mem_cons] at hmem
    rcases hmem with hmem | hmem | hmem | hmem
    · exact not_mem_newline_of_all p.1 hkey.2 (by decide) hmem
    · exact absurd hmem.symm (by decide)
    · exact absurd hmem.symm (by decide)
    · exact absurd (hpm.2 '\n' hmem) (by decide)
  · rcases hl with hl | rfl | hl
    · obtain ⟨s, hs, hls⟩ := List.mem_flatMap.mp hl
      simp only [serializeSectionLines, List.mem_cons] at hls
      rcases hls with rfl | hls
      · intro hmem
        simp only [sectionMark, List.mem_append, List.mem_cons] at hmem
        rcases hmem with hmem | hmem
        · revert hmem
          decide
        · exact not_mem_newline_of_all s.name
            (by
              have hvn := hnames s hs
              rw [validSectionName] at hvn
              simp only [Bool.and_eq_true] at hvn
              exact hvn.1.2) (by decide) hmem
      · obtain ⟨m, hm, rfl⟩ := List.mem_map.mp hls
        exact escapeLine_no_newline m (mem_splitLines_no_newline s.content m hm)
    · decide
    · exact absurd hl (List.not_mem_nil l)

theorem splitLines_serialize (d : PFMDocument) (h : validDoc d = true) :
    splitLines (serialize d) = serializeLines d := by
  rw [serialize]
  exact splitLines_joinLines _ (by simp [serializeLines]) (serializeLines_no_newline d h)

theorem parseMagic_valid (d : PFMDocument)
    (hver : d.formatVersion = String.toList "1.0") (hstream : d.isStream = false) :
    parseMagic (magicLine d) = some (String.toList "1.0", false) := by
  rw [magicLine, hver, hstream]
  decide

/-- Claim C2: for every valid document `d` (supported version, non-stream,
valid section names, identifier meta keys, control-character-free meta
values, within the count and size ceilings), parsing the serialization of
`d` returns exactly `d`: same section sequence — names and contents, in
order — and same meta mapping. -/
theorem parse_serialize_roundtrip (d : PFMDocument) (h : validDoc d = true) :
    parse (serialize d) = some d := by
  have hv := h
  simp only [validDoc, Bool.and_eq_true, decide_eq_true_eq, Bool.not_eq_true',
    List.all_eq_true] at hv
  obtain ⟨⟨⟨⟨⟨⟨hver, hstream⟩, hseccount⟩, hnames⟩, hmetacount⟩, hmeta⟩, hsize⟩ := hv
  have hmetakeys : ∀ p ∈ d.meta, validMetaKey p.1 = true := by
    intro p hp
    exact (hmeta p hp).1
  rw [parse, if_pos hsize, splitLines_serialize d h]
  rw [serializeLines, parseLines]
  rw [parseMagic_valid d hver hstream, Option.some_bind]
  obtain ⟨y, zs, htail, hy⟩ := secBlock_shape d.sections
  have hyq : (!isMarkerLine y) = false := by simp [hy]
  have hmq : ∀ x ∈ d.meta.map metaLine, (!isMarkerLine x) = true := by
    intro x hx
    obtain ⟨p, hp, rfl⟩ := List.mem_map.mp hx
    simp [isMarkerLine_metaLine p (hmetakeys p hp)]
  have hsplit := takeWhile_append_block (fun l => !isMarkerLine l)
    (d.meta.map metaLine) y zs hmq hyq
  rw [htail, hsplit.1, hsplit.2, ← htail]
  rw [parseMetaLines_map d.meta hmetakeys, Option.some_bind]
  rw [if_pos hmetacount]
  rw [parseSections,
    parseSectionsFuel_serialize d.sections _ (Nat.le_refl _) hnames,
    Option.some_bind]
  rw [if_pos hseccount]
  rw [← hver, ← hstream]

/-! ## Stream writer: index alignment and convergence -/

theorem linesLF_append (a b : List Str) : linesLF (a ++ b) = linesLF a ++ linesLF b := by
  simp [linesLF]

theorem sectionBlockBytes (s : PFMSection) :
    linesLF (serializeSectionLines s) = (headerLineOf s ++ ['\n']) ++ sectionBytes s := by
  simp [serializeSectionLines, sectionBytes, linesLF, headerLineOf, List.flatMap_cons]

theorem entries_align :
    ∀ (ss : List PFMSection) (pre post : Str),
      ∀ pr ∈ (entriesFrom pre.length ss).zip ss,
        pr.1.name = pr.2.name ∧
          (((pre ++ linesLF (ss.flatMap serializeSectionLines)) ++ post).drop pr.1.off).take pr.1.len
            = sectionBytes pr.2 := by
  intro ss
  induction ss with
  | nil =>
    intro pre post pr hpr
    simp [entriesFrom] at hpr
  | cons s ss ih =>
    intro pre post pr hpr
    rw [entriesFrom] at hpr
    simp only [List.zip_cons_cons, List.mem_cons] at hpr
    rcases hpr with rfl | hpr
    · refine ⟨rfl, ?_⟩
      have hfile : (pre ++ linesLF ((s :: ss).flatMap serializeSectionLines)) ++ post
          = (pre ++ (headerLineOf s ++ ['\n'])) ++
              (sectionBytes s ++ (linesLF (ss.flatMap serializeSectionLines) ++ post)) := by
        simp only [List.flatMap_cons, linesLF_append, sectionBlockBytes, List.append_assoc]
      rw [hfile]
      have hoff : pre.length + ((headerLineOf s).length + 1)
          = (pre ++ (headerLineOf s ++ ['\n'])).length := by
        simp
      show (((pre ++ (headerLineOf s ++ ['\n'])) ++
          (sectionBytes s ++ (linesLF (ss.flatMap serializeSectionLines) ++ post))).drop
            (pre.length + ((headerLineOf s).length + 1))).take (sectionBytes s).length
          = sectionBytes s
      rw [hoff, List.drop_left]
      exact List.take_left _ _
    · have hbase : pre.length + ((headerLineOf s).length + 1) + (sectionBytes s).length
          = ((pre ++ (headerLineOf s ++ ['\n'])) ++ sectionBytes s).length := by
        simp
        omega
      rw [hbase] at hpr
      have hres := ih ((pre ++ (headerLineOf s ++ ['\n'])) ++ sectionBytes s) post pr hpr
      have hsame : ((((pre ++ (headerLineOf s ++ ['\n'])) ++ sectionBytes s) ++
            linesLF (ss.flatMap serializeSectionLines)) ++ post)
          = (pre ++ linesLF ((s :: ss).flatMap serializeSectionLines)) ++ post := by
        simp only [List.flatMap_cons, linesLF_append, sectionBlockBytes, List.append_assoc]
      rw [← hsame]
      exact hres

theorem fixIndexOffset_sound (bodyLen : Nat) :
    ∀ fuel cand off, fixIndexOffset bodyLen fuel cand = some off →
      bodyLen + (streamEofLine off).length + 1 = off := by
  intro fuel
  induction fuel with
  | zero =>
    intro cand off h
    simp [fixIndexOffset] at h
  | succ k ih =>
    intro cand off h
    rw [fixIndexOffset] at h
    split at h
    · rename_i hc
      injection h with h2
      rw [← h2]
      exact hc
    · exact ih _ _ h

/-- Claim C9: the stream writer's index-offset convergence loop is bounded
— it runs at most `indexAttempts` (3) re-encoding attempts by construction,
so it never loops indefinitely — and for every stream document it either
reports failure (`none`) or produces a file whose trailing index is
self-consistent: the EOF marker's offset is exactly the byte position of
the index block, and every index entry's offset and length resolve to
exactly that section's bytes.  It never emits a silently wrong index. -/
theorem stream_writer_convergence (d : PFMDocument) (h : d.isStream = true) :
    writeStream d = none ∨
      ∃ file off,
        writeStream d = some file ∧
        fixIndexOffset (streamBody d).length indexAttempts (streamBody d).length = some off ∧
        (streamBody d).length + (streamEofLine off).length + 1 = off ∧
        file.drop off = indexBlock d ∧
        SelfConsistentIndex d file := by
  cases hfix : fixIndexOffset (streamBody d).length indexAttempts (streamBody d).length with
  | none =>
    left
    simp [writeStream, h, hfix]
  | some off =>
    right
    have hoff := fixIndexOffset_sound (streamBody d).length indexAttempts _ off hfix
    refine ⟨streamBody d ++ linesLF [streamEofLine off] ++ indexBlock d, off,
      ?_, rfl, hoff, ?_, ?_⟩
    · simp [writeStream, h, hfix]
    · have hlen : (streamBody d ++ linesLF [streamEofLine off]).length = off := by
        rw [List.length_append]
        have h2 : (linesLF [streamEofLine off]).length = (streamEofLine off).length + 1 := by
          simp [linesLF]
        rw [h2]
        omega
      exact List.drop_left' hlen
    · intro pr hpr
      have hshape : streamBody d ++ linesLF [streamEofLine off] ++ indexBlock d
          = (streamPre d ++ linesLF (d.sections.flatMap serializeSectionLines)) ++
              (linesLF [streamEofLine off] ++ indexBlock d) := by
        rw [streamBody]
        simp [List.append_assoc]
      rw [hshape]
      exact entries_align d.sections (streamPre d)
        (linesLF [streamEofLine off] ++ indexBlock d) pr hpr

/-! ## Constant-time comparison -/

theorem char_toNat_inj (c1 c2 : Char) (h : c1.toNat = c2.toNat) : c1 = c2 := by
  rcases c1 with ⟨⟨b1⟩, h1⟩
  rcases c2 with ⟨⟨b2⟩, h2⟩
  simp only [Char.toNat, UInt32.toNat] at h
  have hb : b1 = b2 := BitVec.eq_of_toNat_eq h
  subst hb
  rfl

theorem lor_eq_zero_iff (x y : Nat) : x ||| y = 0 ↔ x = 0 ∧ y = 0 := by
  constructor
  · intro h
    have hb : ∀ i, x.testBit i = false ∧ y.testBit i = false := by
      intro i
      have h2 := congrArg (fun n => n.testBit i) h
      simp only [Nat.testBit_lor, Nat.zero_testBit, Bool.or_eq_false_iff] at h2
      exact h2
    constructor
    · apply Nat.eq_of_testBit_eq
      intro i
      simp [(hb i).1]
    · apply Nat.eq_of_testBit_eq
      intro i
      simp [(hb i).2]
  · rintro ⟨rfl, rfl⟩
    rfl

theorem foldl_lor_eq_zero (xs : List Nat) :
    ∀ init, xs.foldl (fun r x => r ||| x) init = 0 ↔ init = 0 ∧ ∀ x ∈ xs, x = 0 := by
  induction xs with
  | nil => intro init; simp
  | cons x xs ih =>
    intro init
    rw [List.foldl_cons, ih, lor_eq_zero_iff]
    constructor
    · rintro ⟨⟨h1, h2⟩, h3⟩
      refine ⟨h1, ?_⟩
      intro y hy
      rcases List.mem_cons.mp hy with rfl | hy
      · exact h2
      · exact h3 y hy
    · rintro ⟨h1, h2⟩
      exact ⟨⟨h1, h2 x (List.mem_cons_self x xs)⟩,
             fun y hy => h2 y (List.mem_cons_of_mem x hy)⟩

theorem tseFold_fst_eq_zero (a b : List Nat) : (tseFold a b).1 = 0 ↔ a = b := by
  show ((List.range (max a.length b.length)).foldl
      (fun r i => r ||| ((a.getD i 0) ^^^ (b.getD i 0)))
      (if a.length = b.length then 0 else 1)) = 0 ↔ a = b
  rw [← List.foldl_map (fun i => (a.getD i 0) ^^^ (b.getD i 0)) (fun r x => r ||| x)]
  rw [foldl_lor_eq_zero]
  constructor
  · rintro ⟨hinit, hall⟩
    have hlen : a.length = b.length := by
      by_contra hne
      rw [if_neg hne] at hinit
      exact one_ne_zero hinit
    apply List.ext_getElem hlen
    intro i h1 h2
    have hi : i < max a.length b.length := Nat.lt_of_lt_of_le h1 (Nat.le_max_left _ _)
    have hx := hall _ (List.mem_map.mpr ⟨i, List.mem_range.mpr hi, rfl⟩)
    rw [Nat.xor_eq_zero] at hx
    rwa [List.getD_eq_getElem?_getD, List.getD_eq_getElem?_getD,
      List.getElem?_eq_getElem h1, List.getElem?_eq_getElem h2,
      Option.getD_some, Option.getD_some] at hx
  · rintro rfl
    refine ⟨by simp, ?_⟩
    intro x hx
    obtain ⟨i, _, rfl⟩ := List.mem_map.mp hx
    simp

/-- Claim C8: `timingSafeEqual` decides equality correctly — it returns
true exactly when the two code-unit sequences (and hence the two strings)
are identical — and its loop structure is constant-time in the shallow
sense: the number of loop iterations performed depends only on the lengths
of the inputs (it is always the maximum of the two lengths, never
shortcutting on an early mismatch). -/
theorem timingSafeEqual_correct :
    (∀ a b : List Nat, timingSafeEqual a b = true ↔ a = b) ∧
    (∀ a b : Str, timingSafeEqualStr a b = true ↔ a = b) ∧
    (∀ a b : List Nat, (tseFold a b).2 = max a.length b.length) := by
  have hmain : ∀ a b : List Nat, timingSafeEqual a b = true ↔ a = b := by
    intro a b
    rw [timingSafeEqual, decide_eq_true_eq]
    exact tseFold_fst_eq_zero a b
  refine ⟨hmain, ?_, fun a b => rfl⟩
  intro a b
  rw [timingSafeEqualStr, hmain]
  constructor
  · intro h
    have hinj : Function.Injective Char.toNat := fun c1 c2 hc => char_toNat_inj c1 c2 hc
    exact List.map_injective_iff.mpr hinj h
  · intro h
    rw [h]

/-! ## Checksum scope -/

/-- Claim C4: the checksum is computed over the ordered concatenation of
section contents only.  For every hash function `H` and every pair of
documents with equal section-content sequences the digests are equal; in
particular changing only the meta mapping, only the section names, only
the version, or only the stream flag never changes the digest. -/
theorem checksum_content_only :
    (∀ (H : Str → Str) (d₁ d₂ : PFMDocument),
        d₁.sections.map PFMSection.content = d₂.sections.map PFMSection.content →
        checksum H d₁ = checksum H d₂) ∧
    (∀ (H : Str → Str) (v v' : Str) (b b' : Bool) (m m' : List (Str × Str))
        (secs : List PFMSection) (rename : Str → Str),
        checksum H ⟨v, b, m, secs⟩
          = checksum H ⟨v', b', m', secs.map (fun s => ⟨rename s.name, s.content⟩)⟩) := by
  constructor
  · intro H d₁ d₂ hc
    rw [checksum, checksum, checksumInput, checksumInput, hc]
  · intro H v v' b b' m m' secs rename
    simp only [checksum, checksumInput, List.map_map, Function.comp_def]

/-- Claim C7: checksum validation fails closed when no checksum is stored
— for every checksum function `H` and every document whose meta mapping
has no `checksum` field, the `pfm.validateChecksum` command never reports
the document as valid (it warns that no checksum was found). -/
theorem validateChecksum_missing_fails_closed (H : List PFMSection → Str)
    (doc : PFMDocument)
    (h : metaLookup doc.meta (String.toList "checksum") = none) :
    pfmValidateChecksum H doc ≠ ChecksumReport.valid := by
  have h2 : metaLookup doc.meta ['c', 'h', 'e', 'c', 'k', 's', 'u', 'm'] = none := h
  simp [pfmValidateChecksum, h2]

/-- Claim C7 witness: the fail-closed theorem applied to a concrete
document with no stored checksum and a concrete checksum function. -/
theorem validateChecksum_missing_fails_closed_witness :
    pfmValidateChecksum (fun _ => []) noChecksumDoc ≠ ChecksumReport.valid :=
  validateChecksum_missing_fails_closed (fun _ => []) noChecksumDoc rfl

/-- Claim C4 witness: two concrete documents differing in meta and section
names but with equal content sequences have equal digests, for the
identity hash. -/
theorem checksum_content_only_witness :
    checksum (fun s => s)
        ⟨String.toList "1.0", false, [(String.toList "agent", String.toList "x")],
         [⟨String.toList "a", String.toList "hi"⟩]⟩
      = checksum (fun s => s)
        ⟨String.toList "1.0", false, [],
         [⟨String.toList "b", String.toList "hi"⟩]⟩ :=
  checksum_content_only.1 (fun s => s) _ _ (by decide)

/-! ## Parser output invariants -/

theorem parseSectionsFuel_valid :
    ∀ (fuel : Nat) (lines : List Str) (ss : List PFMSection),
      parseSectionsFuel fuel lines = some ss →
      ∀ s ∈ ss, validSectionName s.name = true := by
  intro fuel
  induction fuel with
  | zero =>
    intro lines ss h
    cases lines with
    | nil => simp [parseSectionsFuel] at h
    | cons l rest => simp [parseSectionsFuel] at h
  | succ k ih =>
    intro lines ss h
    cases lines with
    | nil => simp [parseSectionsFuel] at h
    | cons l rest =>
      simp only [parseSectionsFuel] at h
      split at h
      · split at h
        · injection h with h
          rw [← h]
          intro s hs
          simp at hs
        · exact absurd h (by simp)
      · split at h
        · split at h
          · rename_i hname
            split at h
            · rename_i ss' hrec
              injection h with h
              rw [← h]
              intro s hs
              rcases List.mem_cons.mp hs with rfl | hs
              · exact hname
              · exact ih _ _ hrec s hs
            · exact absurd h (by simp)
          · exact absurd h (by simp)
        · exact absurd h (by simp)

theorem parseMagic_supported (magic : Str) (vi : Str × Bool)
    (h : parseMagic magic = some vi) : vi.1 = String.toList "1.0" := by
  simp only [parseMagic] at h
  split at h
  · split at h
    · rename_i hcont
      have hmem : (magic.drop 6).takeWhile (fun c => c != ':') ∈ supportedVersions := by
        simpa using hcont
      have hver : (magic.drop 6).takeWhile (fun c => c != ':') = String.toList "1.0" := by
        simpa [supportedVersions] using hmem
      split at h
      · injection h with h
        rw [← h]
        exact hver
      · split at h
        · injection h with h
          rw [← h]
          exact hver
        · exact absurd h (by simp)
    · exact absurd h (by simp)
  · exact absurd h (by simp)

theorem parse_ok_inv (input : Str) (d : PFMDocument) (h : parse input = some d) :
    d.formatVersion = String.toList "1.0" ∧
      ∀ s ∈ d.sections, validSectionName s.name = true := by
  rw [parse] at h
  split at h
  · cases hsl : splitLines input with
    | nil => rw [hsl] at h; simp [parseLines] at h
    | cons magic rest =>
      rw [hsl] at h
      simp only [parseLines] at h
      rw [Option.bind_eq_some] at h
      obtain ⟨vi, hvi, h⟩ := h
      rw [Option.bind_eq_some] at h
      obtain ⟨meta, hml, h⟩ := h
      split at h
      · rw [Option.bind_eq_some] at h
        obtain ⟨secs, hsecs, h⟩ := h
        split at h
        · injection h with h
          rw [← h]
          constructor
          · exact parseMagic_supported magic vi hvi
          · intro s hs
            simp only [parseSections] at hsecs
            exact parseSectionsFuel_valid _ _ _ hsecs s hs
        · exact absurd h (by simp)
      · exact absurd h (by simp)
  · exact absurd h (by simp)

/-! ## Importer output invariants -/

theorem wrapMeta_not_forbidden (now : Str) (p : Str × Str) (hp : p ∈ wrapMeta now) :
    forbiddenKeys.contains p.1 = false := by
  simp only [wrapMeta, List.mem_cons, List.not_mem_nil, or_false] at hp
  rcases hp with rfl | rfl
  · decide
  · show forbiddenKeys.contains (String.toList "created") = false
    decide

theorem mem_sanitizeMeta (raw : Option Json) (p : Str × Str)
    (hp : p ∈ sanitizeMeta raw) :
    forbiddenKeys.contains p.1 = false ∧
      ∃ mfields, raw = some (Json.obj mfields) ∧ (p.1, Json.str p.2) ∈ mfields := by
  cases raw with
  | none => simp [sanitizeMeta] at hp
  | some j =>
    cases j with
    | obj mfields =>
      simp only [sanitizeMeta] at hp
      rw [List.mem_filterMap] at hp
      obtain ⟨q, hq, hfq⟩ := hp
      cases hq2 : q.2 with
      | str s =>
        rw [hq2] at hfq
        simp only at hfq
        split at hfq
        · exact absurd hfq (by simp)
        · rename_i hforb
          injection hfq with hfq
          have hq1 : (q.1, s) = p := hfq
          constructor
          · rw [← hq1]
            simpa using hforb
          · refine ⟨mfields, rfl, ?_⟩
            rw [← hq1]
            have hqq : ((q.1, s).1, Json.str (q.1, s).2) = q := by
              rw [← hq2]
            rw [hqq]
            exact hq
      | null => rw [hq2] at hfq; simp at hfq
      | bool b => rw [hq2] at hfq; simp at hfq
      | num i => rw [hq2] at hfq; simp at hfq
      | arr items => rw [hq2] at hfq; simp at hfq
      | obj o => rw [hq2] at hfq; simp at hfq
    | null => simp [sanitizeMeta] at hp
    | bool b => simp [sanitizeMeta] at hp
    | num i => simp [sanitizeMeta] at hp
    | str s => simp [sanitizeMeta] at hp
    | arr items => simp [sanitizeMeta] at hp

theorem mem_sanitizeSections_valid (raw : Option Json) (s : PFMSection)
    (hs : s ∈ sanitizeSections raw) : validSectionName s.name = true := by
  cases raw with
  | none => simp [sanitizeSections] at hs
  | some j =>
    cases j with
    | arr items =>
      simp only [sanitizeSections] at hs
      exact (List.mem_filter.mp hs).2
    | null => simp [sanitizeSections] at hs
    | bool b => simp [sanitizeSections] at hs
    | num i => simp [sanitizeSections] at hs
    | str t => simp [sanitizeSections] at hs
    | obj o => simp [sanitizeSections] at hs

theorem fromJSON_sections_valid (env : JsEnv) (data : Json) (doc : PFMDocument)
    (h : fromJSON env data = Except.ok doc) :
    ∀ s ∈ doc.sections, validSectionName s.name = true := by
  intro s hs
  have hwrap : ∀ dd : Json,
      (Except.ok (wrapRawJson env dd) : Except Str PFMDocument) = Except.ok doc →
      validSectionName s.name = true := by
    intro dd hh
    injection hh with hh
    rw [← hh] at hs
    have hs2 : s ∈ [(⟨String.toList "content", env.stringify dd⟩ : PFMSection)] := hs
    rw [List.mem_singleton] at hs2
    rw [hs2]
    show validSectionName (String.toList "content") = true
    decide
  cases data with
  | obj fields =>
    simp only [fromJSON] at h
    split at h
    · split at h
      · injection h with h
        rw [← h] at hs
        exact mem_sanitizeSections_valid _ s hs
      · exact absurd h (by simp)
    · exact hwrap _ h
  | null => exact hwrap _ h
  | bool b => exact hwrap _ h
  | num i => exact hwrap _ h
  | str t => exact hwrap _ h
  | arr items => exact hwrap _ h

/-! ## Claim theorems: version enforcement, sanitization, name rule -/

/-- Claim C3 counterexample: the JSON-import path accepts an input whose
format version field is the JSON number 2 — not in the supported version
set — by silently defaulting any non-string `pfm_version` to `1.0`
(a lenient fallback), instead of rejecting the input with an error. -/
theorem fromJSON_lenient_version_fallback :
    fromJSON constEnv jsonNumVersionInput
      = Except.ok ⟨String.toList "1.0", false, [], []⟩ ∧
    lookupJ [(String.toList "sections", Json.arr []),
             (String.toList "pfm_version", Json.num 2)]
        (String.toList "pfm_version") = some (Json.num 2) :=
  ⟨rfl, rfl⟩

/-- Claim C3 (amended): the engine parse never returns a document whose
format version is outside the supported set, and `fromJSON` rejects any
input that has a `sections` key and a string `pfm_version` outside the
supported set; however, a missing or non-string `pfm_version` silently
defaults to `1.0`, and an input without a `sections` key is wrapped as
content without any version check (lenient fallback paths). -/
theorem version_enforcement_amended :
    (∀ (input : Str) (d : PFMDocument), parse input = some d →
        d.formatVersion = String.toList "1.0") ∧
    (∀ (env : JsEnv) (fields : List (Str × Json)) (v : Str),
        (lookupJ fields (String.toList "sections")).isSome = true →
        lookupJ fields (String.toList "pfm_version") = some (Json.str v) →
        ¬ v = String.toList "1.0" →
        ∃ e, fromJSON env (Json.obj fields) = Except.error e) := by
  constructor
  · exact fun input d h => (parse_ok_inv input d h).1
  · intro env fields v hs hv hne
    simp only [fromJSON, hs, if_true, hv]
    rw [if_neg hne]
    exact ⟨_, rfl⟩

/-- Claim C3 witness: the amended rejection applied to a concrete input
with a `sections` key and the unsupported string version `9.9`. -/
theorem version_enforcement_amended_witness :
    ∃ e, fromJSON constEnv (Json.obj strVersionFields) = Except.error e :=
  version_enforcement_amended.2 constEnv strVersionFields (String.toList "9.9")
    (by decide) rfl (by decide)

/-- Claim C5 counterexample: on an input containing a section with the
invalid name `BAD NAME` alongside a valid one, `fromJSON` does not fail
with a structural error — it returns a partial document in which the
invalid section has been silently dropped. -/
theorem fromJSON_silently_drops_invalid_section :
    validSectionName (String.toList "BAD NAME") = false ∧
    fromJSON constEnv jsonInvalidSectionInput
      = Except.ok ⟨String.toList "1.0", false, [],
                   [⟨String.toList "good", String.toList "y"⟩]⟩ :=
  ⟨by decide, rfl⟩

/-- Claim C5 (amended): no operation that constructs a document from input
ever returns a document containing a section that failed validation — the
engine parse fails with a structural error on an invalid section, while
`fromJSON` silently filters invalid sections out instead of failing, so
its output, though possibly partial, never contains an invalid section. -/
theorem no_invalid_section_ever_returned :
    (∀ (input : Str) (d : PFMDocument), parse input = some d →
        ∀ s ∈ d.sections, validSectionName s.name = true) ∧
    (∀ (env : JsEnv) (data : Json) (doc : PFMDocument),
        fromJSON env data = Except.ok doc →
        ∀ s ∈ doc.sections, validSectionName s.name = true) :=
  ⟨fun input d h => (parse_ok_inv input d h).2, fromJSON_sections_valid⟩

/-- Claim C5 witness: the amended theorem applied to the concrete importer
run that keeps only the section named `good`. -/
theorem no_invalid_section_ever_returned_witness :
    validSectionName (String.toList "good") = true :=
  no_invalid_section_ever_returned.2 constEnv jsonInvalidSectionInput
    ⟨String.toList "1.0", false, [], [⟨String.toList "good", String.toList "y"⟩]⟩ rfl
    ⟨String.toList "good", String.toList "y"⟩ (by decide)

/-- Claim C6: a section name is accepted exactly when it is 1 to 64
characters long, drawn from the lowercase name charset, and not reserved;
a 64-character valid name is accepted, a 65-character one is rejected, the
name `meta` is rejected as reserved, and `fromJSON` keeps a well-formed
section exactly when its name passes this test. -/
theorem section_name_rule :
    (∀ n : Str, validSectionName n = true ↔
      (1 ≤ n.length ∧ n.length ≤ 64 ∧ (∀ c ∈ n, validNameChar c = true) ∧
        n ∉ reservedNames)) ∧
    validSectionName (List.replicate 64 'a') = true ∧
    validSectionName (List.replicate 65 'a') = false ∧
    validSectionName (String.toList "meta") = false ∧
    (∀ (env : JsEnv) (n c : Str),
      (fromJSON env (Json.obj [(String.toList "sections",
          Json.arr [Json.obj [(String.toList "name", Json.str n),
                              (String.toList "content", Json.str c)]])])).toOption.map
        PFMDocument.sections
        = some (if validSectionName n then [⟨n, c⟩] else [])) := by
  refine ⟨?_, by decide, by decide, by decide, ?_⟩
  · intro n
    rw [validSectionName]
    simp only [Bool.and_eq_true, decide_eq_true_eq, List.all_eq_true, Bool.not_eq_true']
    constructor
    · rintro ⟨⟨⟨h1, h2⟩, h3⟩, h4⟩
      refine ⟨h1, h2, h3, ?_⟩
      intro hmem
      have h5 : reservedNames.contains n = true := by simpa using hmem
      rw [h5] at h4
      exact absurd h4 (by simp)
    · rintro ⟨h1, h2, h3, h4⟩
      refine ⟨⟨⟨h1, h2⟩, h3⟩, ?_⟩
      cases hcv : reservedNames.contains n
      · rfl
      · have h6 : n ∈ reservedNames := by simpa using hcv
        exact absurd h6 h4
  · intro env n c
    have hred : fromJSON env (Json.obj [(String.toList "sections",
        Json.arr [Json.obj [(String.toList "name", Json.str n),
                            (String.toList "content", Json.str c)]])])
        = Except.ok ⟨String.toList "1.0", false, [],
            List.filter (fun s => validSectionName s.name) [⟨n, c⟩]⟩ := rfl
    rw [hred]
    by_cases hv : validSectionName n = true
    · simp [Except.toOption, List.filter, hv]
    · simp [Except.toOption, List.filter, hv]

/-- Claim C10: for every accepted import, the returned document's meta
mapping contains none of the keys `__proto__`, `constructor` or
`prototype`, and every entry either is one of the two fixed wrap-path
defaults or originates from a string-valued entry of the input's meta
object — non-string values are dropped, never coerced. -/
theorem fromJSON_meta_sanitized (env : JsEnv) (data : Json) (doc : PFMDocument)
    (h : fromJSON env data = Except.ok doc) :
    ∀ p ∈ doc.meta,
      forbiddenKeys.contains p.1 = false ∧
        (p ∈ wrapMeta env.now ∨
          ∃ fields mfields, data = Json.obj fields ∧
            lookupJ fields (String.toList "meta") = some (Json.obj mfields) ∧
            (p.1, Json.str p.2) ∈ mfields) := by
  intro p hp
  have hwrap : ∀ dd : Json,
      (Except.ok (wrapRawJson env dd) : Except Str PFMDocument) = Except.ok doc →
      forbiddenKeys.contains p.1 = false ∧ p ∈ wrapMeta env.now := by
    intro dd hh
    injection hh with hh
    rw [← hh] at hp
    have hp2 : p ∈ wrapMeta env.now := hp
    exact ⟨wrapMeta_not_forbidden env.now p hp2, hp2⟩
  cases data with
  | obj fields =>
    simp only [fromJSON] at h
    split at h
    · split at h
      · injection h with h
        rw [← h] at hp
        have hp2 : p ∈ sanitizeMeta (lookupJ fields (String.toList "meta")) := hp
        obtain ⟨hforb, mfields, hlm, hmem⟩ := mem_sanitizeMeta _ p hp2
        exact ⟨hforb, Or.inr ⟨fields, mfields, rfl, hlm, hmem⟩⟩
      · exact absurd h (by simp)
    · exact (hwrap _ h).imp_right Or.inl
  | null => exact (hwrap _ h).imp_right Or.inl
  | bool b => exact (hwrap _ h).imp_right Or.inl
  | num i => exact (hwrap _ h).imp_right Or.inl
  | str t => exact (hwrap _ h).imp_right Or.inl
  | arr items => exact (hwrap _ h).imp_right Or.inl

/-- Claim C10 witness: the sanitization theorem applied to a concrete
input whose meta object carries a `__proto__` key, a string-valued key
`a`, and a number-valued key `n` — only `a` survives. -/
theorem fromJSON_meta_sanitized_witness :
    forbiddenKeys.contains (String.toList "a") = false ∧
      ((String.toList "a", String.toList "b") ∈ wrapMeta constEnv.now ∨
        ∃ fields mfields, jsonMetaInput = Json.obj fields ∧
          lookupJ fields (String.toList "meta") = some (Json.obj mfields) ∧
          (String.toList "a", Json.str (String.toList "b")) ∈ mfields) :=
  fromJSON_meta_sanitized constEnv jsonMetaInput
    ⟨String.toList "1.0", false, [(String.toList "a", String.toList "b")], []⟩ rfl
    (String.toList "a", String.toList "b") (by decide)

/-- Claim C2 witness: the round trip applied to a concrete valid document
whose second section contains the literal structural markers. -/
theorem parse_serialize_roundtrip_witness :
    validDoc exampleDoc = true ∧ parse (serialize exampleDoc) = some exampleDoc :=
  ⟨by decide, parse_serialize_roundtrip exampleDoc (by decide)⟩

/-- Claim C9 witness: the convergence theorem applied to a concrete stream
document (for which the writer in fact succeeds and the index is
self-consistent). -/
theorem stream_writer_convergence_witness :
    writeStream exampleStreamDoc = none ∨
      ∃ file off,
        writeStream exampleStreamDoc = some file ∧
        fixIndexOffset (streamBody exampleStreamDoc).length indexAttempts
            (streamBody exampleStreamDoc).length = some off ∧
        (streamBody exampleStreamDoc).length + (streamEofLine off).length + 1 = off ∧
        file.drop off = indexBlock exampleStreamDoc ∧
        SelfConsistentIndex exampleStreamDoc file :=
  stream_writer_convergence exampleStreamDoc rfl

end PFM
